import Mathlib

/-!
Verification of the combat orchestration engine of the agentic-dm repository.

The grid/position tracker and the movement, damage and auto-placement
handlers of `frontend/src/components/combat/useCombatState.ts` are embedded
as executable Lean definitions, together with spec-modelled versions of the
backend operations (initiative rolling, hit-point clamping, combat-start
validation, NPC batch resolution) whose server code is not part of the
source tree.  The stated properties of the specification are then proved
or refuted against these definitions.
-/

namespace AgenticDM

/-- Grid dimensions as held by the combat hook (`DEFAULT_GRID` is 20 by 15). -/
structure GridSize where
  width : Int
  height : Int
deriving DecidableEq, Repr

/-- A cell coordinate pair `(x, y)`. -/
abbrev Pos := Int × Int

/-- The front end tracks token positions in a JavaScript `Map` from combatant
name to cell; a `Map` is an insertion-ordered collection of key/value entries
with unique keys, modelled here as an association list. -/
abbrev PositionsMap := List (String × Pos)

/-- JavaScript `Map.get`: the value of the entry with the given key, if any. -/
def mapGet (m : PositionsMap) (k : String) : Option Pos :=
  (m.find? (fun e => e.1 == k)).map (fun e => e.2)

/-- Update step used by `mapSet` when the key is already present: the entry
with the matching key receives the new value, every other entry is kept. -/
def updEntry (k : String) (v : Pos) (e : String × Pos) : String × Pos :=
  if e.1 == k then (k, v) else e

/-- JavaScript `Map.set`: replaces the value in place when the key is present
(keeping insertion order), otherwise appends a new entry. -/
def mapSet (m : PositionsMap) (k : String) (v : Pos) : PositionsMap :=
  if m.any (fun e => e.1 == k) then m.map (updEntry k v) else m ++ [(k, v)]

/-- JavaScript `Map.delete`: removes the entry with the given key. -/
def mapDelete (m : PositionsMap) (k : String) : PositionsMap :=
  m.filter (fun e => e.1 != k)

/-- A cell lies inside the grid: `x ∈ [0, width)` and `y ∈ [0, height)`. -/
def inBounds (grid : GridSize) (p : Pos) : Prop :=
  0 ≤ p.1 ∧ p.1 < grid.width ∧ 0 ≤ p.2 ∧ p.2 < grid.height

instance (grid : GridSize) (p : Pos) : Decidable (inBounds grid p) := by
  unfold inBounds; exact inferInstance

/-- Consistency of the tracked positions: combatant names are unique keys,
every recorded cell lies inside the grid, and no two entries record the same
cell (no two combatants share a cell). -/
def positionsOk (grid : GridSize) (m : PositionsMap) : Prop :=
  (m.map Prod.fst).Nodup ∧ (∀ e ∈ m, inBounds grid e.2) ∧ (m.map Prod.snd).Nodup

instance (grid : GridSize) (m : PositionsMap) : Decidable (positionsOk grid m) := by
  unfold positionsOk; exact inferInstance

/-- Outcome of the `moveCombatant` handler: either the request is silently
rejected (bounds or collision check failed, positions untouched) or the
optimistic update is applied, remembering the previous position of the moved
combatant for a possible rollback. -/
inductive MoveOutcome where
  | rejected (positions : PositionsMap)
  | applied (positions : PositionsMap) (prevPos : Option Pos)
deriving DecidableEq, Repr

/-- Movement handler `moveCombatant` of `useCombatState.ts`: checks bounds
against the grid, checks collision against every other tracked entry, saves
the previous position of `name`, and applies the optimistic `Map.set`. -/
def moveCombatant (grid : GridSize) (positions : PositionsMap)
    (name : String) (x y : Int) : MoveOutcome :=
  if x < 0 ∨ grid.width ≤ x ∨ y < 0 ∨ grid.height ≤ y then
    .rejected positions
  else if positions.any (fun e => e.1 != name && e.2.1 == x && e.2.2 == y) then
    .rejected positions
  else
    .applied (mapSet positions name (x, y)) (mapGet positions name)

/-- Rollback handler installed on the backend sync of `moveCombatant`: on
failure the previous position is restored, or the entry is deleted when the
combatant had no previous position. -/
def moveRollback (positions : PositionsMap) (name : String)
    (prevPos : Option Pos) : PositionsMap :=
  match prevPos with
  | some p => mapSet positions name p
  | none => mapDelete positions name

/-- Combatant record as held in the front end combat state
(`frontend/src/components/combat/types.ts`); the optional booleans of the
TypeScript interface are modelled with `false` for `undefined`, matching
JavaScript truthiness in the code that reads them. -/
structure Combatant where
  name : String
  initiative : Int
  hp : Int
  max_hp : Int
  is_player : Bool
  is_npc : Bool
  is_friendly : Bool
  conditions : List String
deriving DecidableEq, Repr

/-- A combatant fights on the player side when it is a player or friendly
(`c.is_player || c.is_friendly` in `autoPlaceCombatants`). -/
def isPlayerSide (c : Combatant) : Bool :=
  c.is_player || c.is_friendly

/-- Starting row of a vertically centered group:
`Math.max(0, Math.floor((grid.height - group.length) / 2))`. -/
def startRow (height : Int) (len : Nat) : Int :=
  max 0 ((height - len).fdiv 2)

/-- Placement of one group in a fixed column, vertically centered
(the `placeGroup` closure of `autoPlaceCombatants`). -/
def placeGroup (grid : GridSize) (group : List Combatant) (col : Int)
    (m : PositionsMap) : PositionsMap :=
  let s := startRow grid.height group.length
  group.enum.foldl (fun acc ic => mapSet acc ic.2.name (col, s + ic.1)) m

/-- Auto-placement `autoPlaceCombatants` of `useCombatState.ts`: the player
side (players and friendlies) is placed in column 3, the enemy side in column
`width - 4`, each group vertically centered. -/
def autoPlaceCombatants (combatants : List Combatant) (grid : GridSize) :
    PositionsMap :=
  let playerSide := combatants.filter (fun c => c.is_player || c.is_friendly)
  let enemySide := combatants.filter (fun c => !c.is_player && !c.is_friendly)
  placeGroup grid enemySide (grid.width - 4) (placeGroup grid playerSide 3 [])

/-- A cell lies on an edge of the grid (border row or column). -/
def onEdge (grid : GridSize) (p : Pos) : Prop :=
  p.1 = 0 ∨ p.1 = grid.width - 1 ∨ p.2 = 0 ∨ p.2 = grid.height - 1

instance (grid : GridSize) (p : Pos) : Decidable (onEdge grid p) := by
  unfold onEdge; exact inferInstance

/-- Front end combat state (`CombatState` of
`frontend/src/components/combat/types.ts`). -/
structure CombatState where
  round : Int
  initiative_order : List Combatant
  current_turn_idx : Nat
  active : Bool
deriving Repr

/-- Setup-phase combatant entry (`SetupCombatant`). -/
structure SetupCombatant where
  name : String
  initiative_bonus : Int
  hp : Int
  max_hp : Int
  ac : Int
  is_player : Bool
  is_npc : Bool
  is_friendly : Bool
deriving DecidableEq, Repr

/-- Response of the backend damage endpoint as consumed by `applyDamage`. -/
structure DamageResult where
  current_hp : Int
  combat_ended : Bool
deriving DecidableEq, Repr

/-- The pieces of the `useCombatState` hook state touched by the damage
handler: the combat state, the setup roster and the token positions. -/
structure HookState where
  combat : Option CombatState
  setupCombatants : List SetupCombatant
  positions : PositionsMap

/-- Damage handler `applyDamage` of `useCombatState.ts` on a successful
backend call: every combatant whose name equals the target has its hp
replaced by the reported `current_hp`; when the result reports the combat
ended, the combat state is cleared and the setup roster emptied. -/
def applyDamage (s : HookState) (targetName : String) (result : DamageResult) :
    HookState :=
  match s.combat with
  | none => s
  | some st =>
    let updated := st.initiative_order.map (fun c =>
      if c.name = targetName then { c with hp := result.current_hp } else c)
    let s1 : HookState := { s with combat := some { st with initiative_order := updated } }
    if result.combat_ended then { s1 with combat := none, setupCombatants := [] } else s1

/-- One NPC turn result of the batch returned by the backend. -/
structure NPCTurnResult where
  combatant_name : String
  narration : String
deriving DecidableEq, Repr

/-- Combat log entry appended by `displayNPCTurn` for one NPC turn result
(the cosmetic formatting of the action/result strings is abstracted; what is
embedded is that one entry carries this turn's combatant and narration). -/
structure CombatLogEntry where
  npcName : String
  action : String
deriving DecidableEq, Repr

/-- The single combat log entry `displayNPCTurn` appends for one turn. -/
def mkNpcLogEntry (t : NPCTurnResult) : CombatLogEntry :=
  ⟨t.combatant_name, t.narration⟩

/-- Observable pacing events of the slow-roll loop: a fixed delay
(`await sleep(NPC_TURN_DELAY)`) or the reveal of one turn result. -/
inductive RevealEvent where
  | delay
  | reveal (combatantName : String)
deriving DecidableEq, Repr

/-- Loop body of `slowRollNPCTurns`: for index `i`, a delay is awaited only
when `i > 0`, then the turn is revealed (one log entry appended); `first`
tracks whether the loop is at index 0. -/
def slowRollAux (log : List CombatLogEntry) (first : Bool) :
    List NPCTurnResult → List CombatLogEntry × List RevealEvent
  | [] => (log, [])
  | t :: ts =>
    let pre := if first then [RevealEvent.reveal t.combatant_name]
      else [RevealEvent.delay, RevealEvent.reveal t.combatant_name]
    let rest := slowRollAux (log ++ [mkNpcLogEntry t]) false ts
    (rest.1, pre ++ rest.2)

/-- Slow-roll handler `slowRollNPCTurns` of `useCombatState.ts`: reveals the
batched NPC turn results in order, sleeping only between consecutive entries
(`if (i > 0) await sleep(NPC_TURN_DELAY)`); returns the final combat log and
the ordered pacing trace. -/
def slowRollNPCTurns (log : List CombatLogEntry) (turns : List NPCTurnResult) :
    List CombatLogEntry × List RevealEvent :=
  slowRollAux log true turns

/-- Modelled from the spec: `resolve_until_player_or_end(session)` of the NPC
Turn Resolver (the backend combat engine is not part of the source tree).
It repeatedly calls `resolve_one` and `advance()` as long as the current turn
is AI-controlled and the session is active, accumulating the ordered batch of
turn results eagerly, with no pacing; `fuel` bounds the recursion. -/
def resolveUntilPlayerOrEnd {S R : Type} (resolveOne : S → R × S)
    (advance : S → S) (isAI : S → Bool) (active : S → Bool) :
    Nat → S → List R × S
  | 0, s => ([], s)
  | fuel + 1, s =>
    if active s && isAI s then
      let rs := resolveOne s
      let rest := resolveUntilPlayerOrEnd resolveOne advance isAI active fuel (advance rs.2)
      (rs.1 :: rest.1, rest.2)
    else ([], s)

/-- Initiative entry: input index, rolled score, initiative bonus. -/
abbrev InitEntry := Nat × Int × Int

/-- Modelled from the spec: the scored roster of the Initiative Roller (the
backend combat engine is not part of the source tree).  Combatant `i` with
bonus `bonuses[i]` and roll `rolls[i]` gets `score = roll + bonus`. -/
def initEntries (bonuses rolls : List Int) : List InitEntry :=
  (bonuses.zip rolls).enum.map (fun ib => (ib.1, ib.2.2 + ib.2.1, ib.2.1))

/-- Ordering of the initiative order: descending score, ties broken by higher
bonus, then by stable input order. -/
def initBefore (a b : InitEntry) : Prop :=
  b.2.1 < a.2.1 ∨ (a.2.1 = b.2.1 ∧
    (b.2.2 < a.2.2 ∨ (a.2.2 = b.2.2 ∧ a.1 ≤ b.1)))

instance : DecidableRel initBefore := by
  intro a b
  unfold initBefore
  exact inferInstance

instance : IsTotal InitEntry initBefore := by
  constructor
  intro a b
  unfold initBefore
  omega

instance : IsTrans InitEntry initBefore := by
  constructor
  intro a b c hab hbc
  unfold initBefore at hab hbc ⊢
  omega

instance : IsAntisymm InitEntry initBefore := by
  constructor
  intro a b hab hba
  obtain ⟨i, s, bo⟩ := a
  obtain ⟨j, t, co⟩ := b
  unfold initBefore at hab hba
  simp only at hab hba
  have : i = j ∧ s = t ∧ bo = co := by omega
  simp [this.1, this.2.1, this.2.2]

/-- Modelled from the spec: the Initiative Roller sorts the scored roster
descending by score with the deterministic tie-break. -/
def rollInitiative (bonuses rolls : List Int) : List InitEntry :=
  (initEntries bonuses rolls).insertionSort initBefore

/-- Modelled from the spec: `update_hit_points(id, delta)` of the Combatant
Registry (the backend combat engine is not part of the source tree): the new
value is clamped to `[0, max_hit_points]` and the flag reports a transition
from nonzero to zero hit points. -/
def update_hit_points (hp max_hp delta : Int) : Int × Bool :=
  let new_hp := min max_hp (max 0 (hp + delta))
  (new_hp, decide (hp ≠ 0 ∧ new_hp = 0))

/-- Controller classification of a combatant (spec data model). -/
inductive Team where
  | player
  | hostile
  | friendly_npc
  | dm_monster
deriving DecidableEq, Repr

/-- Teams `player` and `friendly_npc` fight on the player side; `hostile`
and `dm_monster` oppose them. -/
def isPlayerTeam : Team → Bool
  | .player => true
  | .friendly_npc => true
  | .hostile => false
  | .dm_monster => false

/-- Roster member passed to combat start. -/
structure RosterMember where
  name : String
  team : Team
deriving DecidableEq, Repr

/-- Error taxonomy member for combat start. -/
inductive StartError where
  | invalidRoster
deriving DecidableEq, Repr

/-- Session state produced by a successful start. -/
structure SessionState where
  active : Bool
  roster : List RosterMember
deriving DecidableEq, Repr

/-- Modelled from the spec: `start(roster, grid_size)` validation of the Turn
State Machine (the backend combat engine is not part of the source tree): a
roster needs at least 2 combatants spanning the two opposing sides, otherwise
the start fails with `InvalidRoster` and no combat becomes active. -/
def startSession (roster : List RosterMember) : Except StartError SessionState :=
  if 2 ≤ roster.length ∧ (∃ c ∈ roster, isPlayerTeam c.team = true) ∧
      (∃ c ∈ roster, isPlayerTeam c.team = false) then
    .ok { active := true, roster := roster }
  else
    .error .invalidRoster

/-- Start gating in `CombatSetup.tsx`: the start button is rendered exactly
when the setup roster has at least two combatants. -/
def showStartButton (cs : List SetupCombatant) : Bool :=
  decide (2 ≤ cs.length)

theorem updEntry_fst (k : String) (v : Pos) (e : String × Pos) :
    (updEntry k v e).1 = e.1 := by
  unfold updEntry
  split
  · next h => exact (beq_iff_eq.mp h).symm
  · rfl

theorem mapSet_hasKey {m : PositionsMap} {k : String} (v : Pos)
    (h : m.any (fun e => e.1 == k) = true) :
    mapSet m k v = m.map (updEntry k v) := by
  simp [mapSet, h]

theorem mapSet_fresh {m : PositionsMap} {k : String} (v : Pos)
    (h : m.any (fun e => e.1 == k) = false) :
    mapSet m k v = m ++ [(k, v)] := by
  simp [mapSet, h]

theorem keys_mapSet_hasKey {m : PositionsMap} {k : String} (v : Pos)
    (h : m.any (fun e => e.1 == k) = true) :
    (mapSet m k v).map Prod.fst = m.map Prod.fst := by
  rw [mapSet_hasKey v h, List.map_map]
  exact List.map_congr_left (fun e _ => updEntry_fst k v e)

theorem mapGet_eq_some_mem {m : PositionsMap} {k : String} {p : Pos}
    (h : mapGet m k = some p) : (k, p) ∈ m := by
  unfold mapGet at h
  obtain ⟨e, hfind, hsnd⟩ := Option.map_eq_some'.mp h
  have hp := List.find?_some hfind
  have hkey : e.1 = k := by simpa using hp
  have hmem : e ∈ m := List.mem_of_find?_eq_some hfind
  have : e = (k, p) := by
    cases e with
    | mk a b => simp only at hkey hsnd; rw [hkey, hsnd]
  rwa [this] at hmem

theorem mapGet_eq_none_forall {m : PositionsMap} {k : String}
    (h : mapGet m k = none) : ∀ e ∈ m, e.1 ≠ k := by
  unfold mapGet at h
  have hfind : m.find? (fun e => e.1 == k) = none := by
    cases hf : m.find? (fun e => e.1 == k) with
    | none => rfl
    | some e => rw [hf] at h; simp at h
  intro e he
  have := List.find?_eq_none.mp hfind e he
  simpa [beq_iff_eq] using this

theorem eq_of_mem_keys_nodup {m : PositionsMap}
    (hkeys : (m.map Prod.fst).Nodup) {a b : String × Pos}
    (ha : a ∈ m) (hb : b ∈ m) (h : a.1 = b.1) : a = b :=
  List.inj_on_of_nodup_map hkeys ha hb h

theorem eq_of_mem_snd_nodup {m : PositionsMap}
    (hsnd : (m.map Prod.snd).Nodup) {a b : String × Pos}
    (ha : a ∈ m) (hb : b ∈ m) (h : a.2 = b.2) : a = b :=
  List.inj_on_of_nodup_map hsnd ha hb h

theorem map_updEntry_eq_self {m : PositionsMap} {k : String} (v : Pos)
    (h : ∀ e ∈ m, e.1 ≠ k) : m.map (updEntry k v) = m := by
  have : ∀ e ∈ m, updEntry k v e = e := by
    intro e he
    simp [updEntry, h e he]
  simp [List.map_congr_left this]

theorem mapSet_self_mem {m : PositionsMap} {k : String} {v : Pos}
    (hkeys : (m.map Prod.fst).Nodup) (hmem : (k, v) ∈ m) :
    mapSet m k v = m := by
  have hk : m.any (fun e => e.1 == k) = true :=
    List.any_eq_true.mpr ⟨(k, v), hmem, by simp⟩
  rw [mapSet_hasKey v hk]
  have : ∀ e ∈ m, updEntry k v e = e := by
    intro e he
    by_cases hek : e.1 = k
    · have := eq_of_mem_keys_nodup hkeys he hmem hek
      simp [updEntry, this]
    · simp [updEntry, hek]
  simp [List.map_congr_left this]

theorem nodup_snd_update {m : PositionsMap} {k : String} {v : Pos}
    (hkeys : (m.map Prod.fst).Nodup)
    (hsnd : (m.map Prod.snd).Nodup)
    (hfresh : ∀ e ∈ m, e.1 ≠ k → e.2 ≠ v) :
    ((m.map (updEntry k v)).map Prod.snd).Nodup := by
  induction m with
  | nil => simp
  | cons e t ih =>
    simp only [List.map_cons, List.nodup_cons] at hkeys hsnd ⊢
    by_cases hek : e.1 = k
    · have htk : ∀ a ∈ t, a.1 ≠ k := by
        intro a ha hak
        apply hkeys.1
        have heq : e.1 = a.1 := by rw [hek, hak]
        rw [heq]
        exact List.mem_map_of_mem Prod.fst ha
      have hupd : updEntry k v e = (k, v) := by simp [updEntry, hek]
      rw [hupd, map_updEntry_eq_self v htk]
      constructor
      · intro hvmem
        obtain ⟨a, ha, hav⟩ := List.mem_map.mp hvmem
        exact hfresh a (List.mem_cons_of_mem e ha) (htk a ha) hav
      · exact hsnd.2
    · have hupd : updEntry k v e = e := by simp [updEntry, hek]
      rw [hupd]
      constructor
      · intro hmem
        obtain ⟨a', ha', hav⟩ := List.mem_map.mp hmem
        obtain ⟨a, ha, rfl⟩ := List.mem_map.mp ha'
        by_cases hak : a.1 = k
        · have hva : (updEntry k v a).2 = v := by simp [updEntry, hak]
          rw [hva] at hav
          exact hfresh e (List.mem_cons_self e t) hek hav.symm
        · have hva : (updEntry k v a).2 = a.2 := by simp [updEntry, hak]
          rw [hva] at hav
          exact hsnd.1 (hav ▸ List.mem_map_of_mem Prod.snd ha)
      · exact ih hkeys.2 hsnd.2
          (fun a ha hak => hfresh a (List.mem_cons_of_mem e ha) hak)

theorem mapGet_mapSet_self (m : PositionsMap) (k : String) (v : Pos) :
    mapGet (mapSet m k v) k = some v := by
  by_cases hk : m.any (fun e => e.1 == k) = true
  · rw [mapSet_hasKey v hk]
    induction m with
    | nil => simp at hk
    | cons e t ih =>
      simp only [List.any_cons, Bool.or_eq_true] at hk
      by_cases hek : e.1 = k
      · have hupd : updEntry k v e = (k, v) := by simp [updEntry, hek]
        simp [mapGet, hupd]
      · have hupd : updEntry k v e = e := by simp [updEntry, hek]
        have hne : ¬((fun a : String × Pos => a.1 == k) e = true) := by simp [hek]
        rcases hk with hk | hk
        · exact absurd hk (by simp [hek])
        · have ihh := ih hk
          unfold mapGet at ihh ⊢
          rw [List.map_cons, hupd,
            @List.find?_cons_of_neg _ (fun a : String × Pos => a.1 == k) e
              (List.map (updEntry k v) t) hne]
          exact ihh
  · rw [mapSet_fresh v (Bool.eq_false_iff.mpr hk)]
    have hall : ∀ e ∈ m, e.1 ≠ k := by
      intro e he hek
      exact List.any_eq_false.mp (Bool.eq_false_iff.mpr hk) e he (by simp [hek])
    have hfind : m.find? (fun e => e.1 == k) = none :=
      List.find?_eq_none.mpr (fun e he => by simp [hall e he])
    simp [mapGet, List.find?_append, hfind]

/-- Claim C1 — the `moveCombatant` handler preserves the grid invariants: if
the tracked positions have unique names, all cells inside the grid and no
shared cell, then any applied move keeps those invariants, and a move to an
out-of-bounds cell is rejected with the positions map unchanged. -/
theorem moveCombatant_invariants (grid : GridSize) (m : PositionsMap)
    (name : String) (x y : Int) (hInv : positionsOk grid m) :
    (∀ m' p, moveCombatant grid m name x y = .applied m' p → positionsOk grid m') ∧
    ((x < 0 ∨ grid.width ≤ x ∨ y < 0 ∨ grid.height ≤ y) →
      moveCombatant grid m name x y = .rejected m) := by
  obtain ⟨hkeys, hbounds, hsnd⟩ := hInv
  constructor
  · intro m' p h
    unfold moveCombatant at h
    split at h
    · simp at h
    · split at h
      · simp at h
      · next hb hc =>
        injection h with h1 h2
        subst h1
        push_neg at hb
        have hfresh : ∀ e ∈ m, e.1 ≠ name → e.2 ≠ (x, y) := by
          intro e he hne hev
          apply hc
          refine List.any_eq_true.mpr ⟨e, he, ?_⟩
          have h1 : e.2.1 = x := by rw [hev]
          have h2 : e.2.2 = y := by rw [hev]
          simp [hne, h1, h2]
        have hin : inBounds grid (x, y) := ⟨hb.1, hb.2.1, hb.2.2.1, hb.2.2.2⟩
        by_cases hk : m.any (fun e => e.1 == name) = true
        · refine ⟨?_, ?_, ?_⟩
          · rw [keys_mapSet_hasKey (x, y) hk]
            exact hkeys
          · rw [mapSet_hasKey _ hk]
            intro e' he'
            obtain ⟨e, he, rfl⟩ := List.mem_map.mp he'
            by_cases hek : e.1 = name
            · have : updEntry name (x, y) e = (name, (x, y)) := by simp [updEntry, hek]
              rw [this]
              exact hin
            · have : updEntry name (x, y) e = e := by simp [updEntry, hek]
              rw [this]
              exact hbounds e he
          · rw [mapSet_hasKey _ hk]
            exact nodup_snd_update hkeys hsnd hfresh
        · rw [mapSet_fresh _ (Bool.eq_false_iff.mpr hk)]
          have hall : ∀ e ∈ m, e.1 ≠ name := by
            intro e he
            have := List.any_eq_false.mp (Bool.eq_false_iff.mpr hk) e he
            simp_all
          refine ⟨?_, ?_, ?_⟩
          · simp only [List.map_append, List.map_cons, List.map_nil]
            rw [List.nodup_append]
            refine ⟨hkeys, List.nodup_singleton name, ?_⟩
            intro a ha hb'
            obtain ⟨e, he, rfl⟩ := List.mem_map.mp ha
            simp only [List.mem_singleton] at hb'
            exact hall e he hb'
          · intro e he
            rcases List.mem_append.mp he with he | he
            · exact hbounds e he
            · simp only [List.mem_singleton] at he
              rw [he]
              exact hin
          · simp only [List.map_append, List.map_cons, List.map_nil]
            rw [List.nodup_append]
            refine ⟨hsnd, List.nodup_singleton _, ?_⟩
            intro a ha hb'
            obtain ⟨e, he, rfl⟩ := List.mem_map.mp ha
            simp only [List.mem_singleton] at hb'
            exact hfresh e he (hall e he) hb'
  · intro h
    unfold moveCombatant
    rw [if_pos h]

/-- Concrete instantiation of the C1 theorem: moving "Aria" from (3,7) to the
free in-bounds cell (5,5) on the default 20 by 15 grid keeps the invariants. -/
theorem moveCombatant_invariants_witness :
    positionsOk ⟨20, 15⟩ [("Aria", (3, 7)), ("Gob", (16, 7))] ∧
    positionsOk ⟨20, 15⟩ [("Aria", (5, 5)), ("Gob", (16, 7))] :=
  ⟨by decide,
    (moveCombatant_invariants ⟨20, 15⟩ [("Aria", (3, 7)), ("Gob", (16, 7))]
      "Aria" 5 5 (by decide)).1
      [("Aria", (5, 5)), ("Gob", (16, 7))] (some (3, 7)) (by decide)⟩

/-- Claim C2 — `moveCombatant` applies the move optimistically and the
installed rollback restores the pre-move state exactly: whenever the handler
applies a move, the local position is already the new cell, and running the
rollback on the optimistic state with the saved previous position yields the
original positions map (restoring the previous cell, or deleting the entry
when the combatant had no prior position). -/
theorem moveCombatant_optimistic_rollback (grid : GridSize) (m : PositionsMap)
    (name : String) (x y : Int) (hkeys : (m.map Prod.fst).Nodup)
    (m' : PositionsMap) (p : Option Pos)
    (h : moveCombatant grid m name x y = .applied m' p) :
    mapGet m' name = some (x, y) ∧ moveRollback m' name p = m := by
  unfold moveCombatant at h
  split at h
  · simp at h
  · split at h
    · simp at h
    · injection h with h1 h2
      subst h1
      subst h2
      refine ⟨mapGet_mapSet_self m name (x, y), ?_⟩
      cases hget : mapGet m name with
      | some q =>
        have hmem : (name, q) ∈ m := mapGet_eq_some_mem hget
        have hk : m.any (fun e => e.1 == name) = true :=
          List.any_eq_true.mpr ⟨(name, q), hmem, by simp⟩
        have hk2 : (m.map (updEntry name (x, y))).any (fun e => e.1 == name) = true :=
          List.any_eq_true.mpr ⟨updEntry name (x, y) (name, q),
            List.mem_map_of_mem _ hmem, by simp [updEntry]⟩
        show mapSet (mapSet m name (x, y)) name q = m
        rw [mapSet_hasKey _ hk, mapSet_hasKey _ hk2, List.map_map]
        have hcomp : ∀ e ∈ m, (updEntry name q ∘ updEntry name (x, y)) e = e := by
          intro e he
          by_cases hek : e.1 = name
          · have : e = (name, q) := eq_of_mem_keys_nodup hkeys he hmem hek
            simp [this, updEntry, Function.comp]
          · simp [updEntry, Function.comp, hek]
        rw [List.map_congr_left hcomp]
        simp
      | none =>
        have hall : ∀ e ∈ m, e.1 ≠ name := mapGet_eq_none_forall hget
        have hk : m.any (fun e => e.1 == name) = false :=
          List.any_eq_false.mpr (fun e he => by simp [hall e he])
        show mapDelete (mapSet m name (x, y)) name = m
        rw [mapSet_fresh _ hk]
        unfold mapDelete
        rw [List.filter_append]
        have h1 : m.filter (fun e => e.1 != name) = m :=
          List.filter_eq_self.mpr (fun e he => by simp [hall e he])
        have h2 : [(name, (x, y))].filter (fun e : String × Pos => e.1 != name) = [] := by
          simp
        rw [h1, h2, List.append_nil]

/-- Concrete instantiation of the C2 theorem: moving "Aria" from (3,7) to
(5,5), the optimistic state holds (5,5) and the rollback restores (3,7). -/
theorem moveCombatant_optimistic_rollback_witness :
    mapGet [(("Aria" : String), ((5 : Int), (5 : Int)))] "Aria" = some (5, 5) ∧
    moveRollback [("Aria", (5, 5))] "Aria" (some (3, 7)) = [("Aria", (3, 7))] :=
  moveCombatant_optimistic_rollback ⟨20, 15⟩ [("Aria", (3, 7))] "Aria" 5 5
    (by decide) [("Aria", (5, 5))] (some (3, 7)) (by decide)

/-- Claim C8 — moving a combatant to its own current cell passes the bounds
and collision validation and is a no-op: under the grid invariants the
handler returns the applied outcome with the positions map literally
unchanged. -/
theorem moveCombatant_same_cell_noop (grid : GridSize) (m : PositionsMap)
    (name : String) (x y : Int) (hInv : positionsOk grid m)
    (hcur : mapGet m name = some (x, y)) :
    moveCombatant grid m name x y = .applied m (some (x, y)) := by
  obtain ⟨hkeys, hbounds, hsnd⟩ := hInv
  have hmem : (name, (x, y)) ∈ m := mapGet_eq_some_mem hcur
  have hin : inBounds grid (x, y) := hbounds _ hmem
  unfold moveCombatant
  rw [if_neg, if_neg]
  · rw [mapSet_self_mem hkeys hmem, hcur]
  · intro hc
    obtain ⟨e, he, hb⟩ := List.any_eq_true.mp hc
    simp only [Bool.and_eq_true, bne_iff_ne, beq_iff_eq] at hb
    have hev : e.2 = (x, y) := by
      cases hp : e.2 with
      | mk a b => rw [hp] at hb; simp only at hb; rw [hb.1.2, hb.2]
    have : e = (name, (x, y)) := eq_of_mem_snd_nodup hsnd he hmem hev
    exact hb.1.1 (by rw [this])
  · obtain ⟨h1, h2, h3, h4⟩ := hin
    intro hc
    rcases hc with hc | hc | hc | hc <;> omega

/-- Concrete instantiation of the C8 theorem: with "Aria" at (3,7), a move
request to (3,7) is an applied no-op. -/
theorem moveCombatant_same_cell_noop_witness :
    moveCombatant ⟨20, 15⟩ [("Aria", (3, 7))] "Aria" 3 7 =
      .applied [("Aria", (3, 7))] (some (3, 7)) :=
  moveCombatant_same_cell_noop ⟨20, 15⟩ [("Aria", (3, 7))] "Aria" 3 7
    (by decide) (by decide)

/-- Claim C4 — `update_hit_points` clamps the result into `[0, max_hp]` for
any delta (over-damage to 0, over-heal to max) and reports incapacitation
exactly on a transition from nonzero to zero hit points. -/
theorem update_hit_points_clamped (hp max_hp delta : Int) (hmax : 0 ≤ max_hp) :
    0 ≤ (update_hit_points hp max_hp delta).1 ∧
    (update_hit_points hp max_hp delta).1 ≤ max_hp ∧
    (hp + delta ≤ 0 → (update_hit_points hp max_hp delta).1 = 0) ∧
    (max_hp ≤ hp + delta → (update_hit_points hp max_hp delta).1 = max_hp) ∧
    ((update_hit_points hp max_hp delta).2 = true ↔
      hp ≠ 0 ∧ (update_hit_points hp max_hp delta).1 = 0) := by
  unfold update_hit_points
  refine ⟨?_, ?_, ?_, ?_, ?_⟩
  · exact le_min hmax (le_max_left 0 _)
  · exact min_le_left _ _
  · intro h
    have h1 : max 0 (hp + delta) = 0 := max_eq_left h
    rw [h1]
    exact min_eq_right hmax
  · intro h
    have h1 : max 0 (hp + delta) = hp + delta := max_eq_right (le_trans hmax h)
    rw [h1]
    exact min_eq_left h
  · simp

/-- Concrete instantiation of the C4 theorem: 100 damage against 10/10 hp
clamps to 0 and reports incapacitation. -/
theorem update_hit_points_clamped_witness :
    0 ≤ (update_hit_points 10 10 (-100)).1 ∧
    (update_hit_points 10 10 (-100)).1 ≤ 10 ∧
    (10 + (-100) ≤ 0 → (update_hit_points 10 10 (-100)).1 = 0) ∧
    (10 ≤ 10 + (-100) → (update_hit_points 10 10 (-100)).1 = 10) ∧
    ((update_hit_points 10 10 (-100)).2 = true ↔
      (10 : Int) ≠ 0 ∧ (update_hit_points 10 10 (-100)).1 = 0) :=
  update_hit_points_clamped 10 10 (-100) (by decide)

/-- Claim C5 — combat start validation: a roster with fewer than two members
or a single team fails with `InvalidRoster` (no session becomes active), a
successful start implies at least two members spanning both opposing sides
and an active session, and the front end renders the start button exactly for
rosters of at least two setup combatants. -/
theorem startSession_validation (roster : List RosterMember) :
    ((roster.length < 2 ∨ ∀ c ∈ roster, ∀ d ∈ roster, c.team = d.team) →
      startSession roster = .error .invalidRoster) ∧
    (∀ s, startSession roster = .ok s →
      2 ≤ roster.length ∧ (∃ c ∈ roster, isPlayerTeam c.team = true) ∧
      (∃ c ∈ roster, isPlayerTeam c.team = false) ∧ s.active = true) ∧
    (∀ cs : List SetupCombatant, showStartButton cs = true ↔ 2 ≤ cs.length) := by
  refine ⟨?_, ?_, ?_⟩
  · intro h
    unfold startSession
    rw [if_neg]
    rintro ⟨hlen, ⟨cp, hcp, hcpt⟩, ⟨ch, hch, hcht⟩⟩
    rcases h with h | h
    · omega
    · have hteam := h cp hcp ch hch
      rw [hteam] at hcpt
      rw [hcpt] at hcht
      simp at hcht
  · intro s hs
    unfold startSession at hs
    split at hs
    · next h =>
      injection hs with hs
      exact ⟨h.1, h.2.1, h.2.2, by rw [← hs]⟩
    · simp at hs
  · intro cs
    unfold showStartButton
    simp

/-- Concrete instantiation of the C5 theorem: a single-member roster fails
with `InvalidRoster`. -/
theorem startSession_validation_witness :
    startSession [⟨"Solo", .player⟩] = .error .invalidRoster :=
  (startSession_validation [⟨"Solo", .player⟩]).1 (Or.inl (by decide))

theorem forall₂_map_self {α β : Type} (R : α → β → Prop) (f : α → β)
    (l : List α) (h : ∀ a ∈ l, R a (f a)) : List.Forall₂ R l (l.map f) := by
  induction l with
  | nil => exact List.Forall₂.nil
  | cons a t ih =>
    exact List.Forall₂.cons (h a (List.mem_cons_self a t))
      (ih (fun b hb => h b (List.mem_cons_of_mem a hb)))

/-- Claim C9 — damage application is frame-preserving: the positions map is
never touched; when the result reports the combat ended, the combat state is
cleared (and the setup roster emptied); otherwise the round, turn index,
active flag and setup roster are unchanged and the initiative order is
updated pointwise, with every combatant not named as the target literally
unchanged and the target changed only in its `hp` field. -/
theorem applyDamage_frame (s : HookState) (st : CombatState)
    (hs : s.combat = some st) (targetName : String) (result : DamageResult) :
    (applyDamage s targetName result).positions = s.positions ∧
    (result.combat_ended = true →
      (applyDamage s targetName result).combat = none ∧
      (applyDamage s targetName result).setupCombatants = []) ∧
    (result.combat_ended = false → ∃ st',
      (applyDamage s targetName result).combat = some st' ∧
      (applyDamage s targetName result).setupCombatants = s.setupCombatants ∧
      st'.round = st.round ∧ st'.current_turn_idx = st.current_turn_idx ∧
      st'.active = st.active ∧
      List.Forall₂ (fun c c' : Combatant =>
        c'.name = c.name ∧ c'.initiative = c.initiative ∧
        c'.max_hp = c.max_hp ∧ c'.is_player = c.is_player ∧
        c'.is_npc = c.is_npc ∧ c'.is_friendly = c.is_friendly ∧
        c'.conditions = c.conditions ∧
        (c.name = targetName → c'.hp = result.current_hp) ∧
        (c.name ≠ targetName → c' = c))
        st.initiative_order st'.initiative_order) := by
  simp only [applyDamage, hs]
  by_cases hend : result.combat_ended = true
  · rw [if_pos hend]
    exact ⟨rfl, fun _ => ⟨rfl, rfl⟩,
      fun h => absurd h (by simp [hend])⟩
  · rw [if_neg hend]
    refine ⟨rfl, fun h => absurd h hend, fun _ => ?_⟩
    refine ⟨_, rfl, rfl, rfl, rfl, rfl, ?_⟩
    apply forall₂_map_self
    intro c _
    by_cases hc : c.name = targetName
    · simp [hc]
    · simp [hc]

/-- Concrete instantiation of the C9 theorem: applying 3 remaining hp to
"Gob" leaves the token positions untouched. -/
theorem applyDamage_frame_witness :
    (applyDamage
      ⟨some ⟨1, [⟨"Aria", 17, 12, 12, true, false, false, []⟩,
                 ⟨"Gob", 10, 7, 7, false, true, false, []⟩], 0, true⟩,
        [], [("Aria", (3, 7)), ("Gob", (16, 7))]⟩
      "Gob" ⟨3, false⟩).positions = [("Aria", (3, 7)), ("Gob", (16, 7))] :=
  (applyDamage_frame
    ⟨some ⟨1, [⟨"Aria", 17, 12, 12, true, false, false, []⟩,
               ⟨"Gob", 10, 7, 7, false, true, false, []⟩], 0, true⟩,
      [], [("Aria", (3, 7)), ("Gob", (16, 7))]⟩
    ⟨1, [⟨"Aria", 17, 12, 12, true, false, false, []⟩,
         ⟨"Gob", 10, 7, 7, false, true, false, []⟩], 0, true⟩
    rfl "Gob" ⟨3, false⟩).1

/-- Claim C3 — the initiative order is the sorted scored roster: sorted by
descending score (`roll + bonus`) with ties broken by higher bonus then by
stable input order, it is a permutation of the scored roster, and it is the
unique such list — any two sorted permutations of the same scored roster
coincide, so repeated runs with the same bonuses and rolls produce the same
order. -/
theorem rollInitiative_sorted_deterministic (bonuses rolls : List Int) :
    List.Sorted initBefore (rollInitiative bonuses rolls) ∧
    List.Perm (rollInitiative bonuses rolls) (initEntries bonuses rolls) ∧
    (∀ l₁ l₂ : List InitEntry,
      List.Perm l₁ (initEntries bonuses rolls) → List.Sorted initBefore l₁ →
      List.Perm l₂ (initEntries bonuses rolls) → List.Sorted initBefore l₂ →
      l₁ = l₂) := by
  refine ⟨List.sorted_insertionSort initBefore _,
    List.perm_insertionSort initBefore _, ?_⟩
  intro l₁ l₂ h₁ hs₁ h₂ hs₂
  exact List.eq_of_perm_of_sorted (h₁.trans h₂.symm) hs₁ hs₂

/-- Concrete instantiation of the C3 theorem (the scenario of the spec):
bonuses [2,0,0] with forced rolls [15,10,10] give the unique order
A(17) then the two goblins tie-broken by input order. -/
theorem rollInitiative_sorted_deterministic_witness :
    ([((0 : Nat), (17 : Int), (2 : Int)), (1, 10, 0), (2, 10, 0)] : List InitEntry) =
      rollInitiative [2, 0, 0] [15, 10, 10] :=
  (rollInitiative_sorted_deterministic [2, 0, 0] [15, 10, 10]).2.2
    [(0, 17, 2), (1, 10, 0), (2, 10, 0)] (rollInitiative [2, 0, 0] [15, 10, 10])
    (by decide) (by decide)
    (rollInitiative_sorted_deterministic [2, 0, 0] [15, 10, 10]).2.1
    (rollInitiative_sorted_deterministic [2, 0, 0] [15, 10, 10]).1

theorem slowRollAux_false_spec (ts : List NPCTurnResult) :
    ∀ log : List CombatLogEntry,
      (slowRollAux log false ts).1 = log ++ ts.map mkNpcLogEntry ∧
      (slowRollAux log false ts).2 = ts.foldr
        (fun t acc => RevealEvent.delay :: RevealEvent.reveal t.combatant_name :: acc)
        [] := by
  induction ts with
  | nil => intro log; simp [slowRollAux]
  | cons t ts ih =>
    intro log
    obtain ⟨h1, h2⟩ := ih (log ++ [mkNpcLogEntry t])
    constructor
    · show (slowRollAux (log ++ [mkNpcLogEntry t]) false ts).1 = _
      rw [h1, List.append_assoc]
      rfl
    · show (if false = true then _ else
        [RevealEvent.delay, RevealEvent.reveal t.combatant_name]) ++
        (slowRollAux (log ++ [mkNpcLogEntry t]) false ts).2 = _
      rw [if_neg (by simp), h2]
      rfl

theorem intersperse_delay_foldr (t : NPCTurnResult) (ts : List NPCTurnResult) :
    List.intersperse RevealEvent.delay
        ((t :: ts).map (fun u => RevealEvent.reveal u.combatant_name)) =
      RevealEvent.reveal t.combatant_name :: ts.foldr
        (fun u acc => RevealEvent.delay :: RevealEvent.reveal u.combatant_name :: acc)
        [] := by
  induction ts generalizing t with
  | nil => simp [List.intersperse]
  | cons u ts ih =>
    simp only [List.map_cons, List.foldr_cons]
    rw [show List.intersperse RevealEvent.delay
        (RevealEvent.reveal t.combatant_name :: RevealEvent.reveal u.combatant_name ::
          ts.map (fun v => RevealEvent.reveal v.combatant_name)) =
      RevealEvent.reveal t.combatant_name :: RevealEvent.delay ::
        List.intersperse RevealEvent.delay (RevealEvent.reveal u.combatant_name ::
          ts.map (fun v => RevealEvent.reveal v.combatant_name)) by
        simp [List.intersperse]]
    have := ih u
    simp only [List.map_cons] at this
    rw [this]

/-- Claim C7 — NPC batch contract: the caller's slow roll reveals the batch
strictly in order, appending exactly one log entry per turn result, with the
fixed delay interspersed only between consecutive reveals; and the engine's
`resolve_until_player_or_end` accumulates the batch until the session is no
longer at an active AI-controlled turn (unless the fuel bound is hit). -/
theorem npc_batch_reveal_contract :
    (∀ (log : List CombatLogEntry) (turns : List NPCTurnResult),
      (slowRollNPCTurns log turns).1 = log ++ turns.map mkNpcLogEntry ∧
      (slowRollNPCTurns log turns).2 = List.intersperse RevealEvent.delay
        (turns.map (fun t => RevealEvent.reveal t.combatant_name))) ∧
    (∀ (S R : Type) (resolveOne : S → R × S) (advance : S → S)
        (isAI : S → Bool) (active : S → Bool) (fuel : Nat) (s : S),
      (resolveUntilPlayerOrEnd resolveOne advance isAI active fuel s).1.length = fuel ∨
      (active (resolveUntilPlayerOrEnd resolveOne advance isAI active fuel s).2 &&
        isAI (resolveUntilPlayerOrEnd resolveOne advance isAI active fuel s).2) = false) := by
  constructor
  · intro log turns
    cases turns with
    | nil => simp [slowRollNPCTurns, slowRollAux, List.intersperse]
    | cons t ts =>
      obtain ⟨h1, h2⟩ := slowRollAux_false_spec ts (log ++ [mkNpcLogEntry t])
      constructor
      · show (slowRollAux (log ++ [mkNpcLogEntry t]) false ts).1 = _
        rw [h1, List.append_assoc]
        rfl
      · show (if true = true then [RevealEvent.reveal t.combatant_name] else _) ++
          (slowRollAux (log ++ [mkNpcLogEntry t]) false ts).2 = _
        rw [if_pos rfl, h2, intersperse_delay_foldr]
        rfl
  · intro S R resolveOne advance isAI active fuel
    induction fuel with
    | zero => intro s; left; rfl
    | succ fuel ih =>
      intro s
      unfold resolveUntilPlayerOrEnd
      cases hc : active s && isAI s with
      | true =>
        rw [if_pos rfl]
        rcases ih (advance (resolveOne s).2) with h | h
        · left
          simp only [List.length_cons, h]
        · right
          exact h
      | false =>
        rw [if_neg (by simp)]
        right
        exact hc

theorem mapGet_of_mem_nodup {m : PositionsMap} {k : String} {v : Pos}
    (hkeys : (m.map Prod.fst).Nodup) (hmem : (k, v) ∈ m) :
    mapGet m k = some v := by
  induction m with
  | nil => cases hmem
  | cons e t ih =>
    simp only [List.map_cons, List.nodup_cons] at hkeys
    rcases List.mem_cons.mp hmem with he | ht
    · rw [← he]
      simp [mapGet]
    · have hek : ¬((fun e : String × Pos => e.1 == k) e = true) := by
        simp only [beq_iff_eq]
        intro h
        apply hkeys.1
        rw [h]
        exact List.mem_map_of_mem Prod.fst ht
      unfold mapGet at ih ⊢
      rw [@List.find?_cons_of_neg _ (fun e : String × Pos => e.1 == k) e t hek]
      exact ih hkeys.2 ht

theorem foldl_mapSet_fresh (ps : List (String × Pos)) :
    ∀ m : PositionsMap, (∀ e ∈ ps, ∀ d ∈ m, e.1 ≠ d.1) →
      (ps.map Prod.fst).Nodup →
      ps.foldl (fun acc e => mapSet acc e.1 e.2) m = m ++ ps := by
  induction ps with
  | nil =>
    intro m _ _
    simp
  | cons e ps ih =>
    intro m hdisj hnodup
    simp only [List.foldl_cons]
    have hfresh : m.any (fun d => d.1 == e.1) = false :=
      List.any_eq_false.mpr (fun d hd => by
        simp [(hdisj e (List.mem_cons_self e ps) d hd).symm])
    have hset : mapSet m e.1 e.2 = m ++ [e] := by
      rw [mapSet_fresh _ hfresh]
    have hd2 : ∀ a ∈ ps, ∀ d ∈ m ++ [e], a.1 ≠ d.1 := by
      intro a ha d hd
      rcases List.mem_append.mp hd with hdm | hde
      · exact hdisj a (List.mem_cons_of_mem e ha) d hdm
      · simp only [List.mem_singleton] at hde
        subst hde
        simp only [List.map_cons, List.nodup_cons] at hnodup
        intro hq
        exact hnodup.1 (hq ▸ List.mem_map_of_mem Prod.fst ha)
    have hn2 : (ps.map Prod.fst).Nodup := by
      simp only [List.map_cons, List.nodup_cons] at hnodup
      exact hnodup.2
    rw [hset, ih (m ++ [e]) hd2 hn2, List.append_assoc]
    rfl

theorem placeGroup_eq (grid : GridSize) (group : List Combatant) (col : Int)
    (m : PositionsMap)
    (hn : (group.map Combatant.name).Nodup)
    (hd : ∀ c ∈ group, ∀ d ∈ m, c.name ≠ d.1) :
    placeGroup grid group col m =
      m ++ group.enum.map (fun ic =>
        ((ic.2.name : String),
          ((col, startRow grid.height group.length + ic.1) : Pos))) := by
  have hfm := List.foldl_map
    (fun ic : Nat × Combatant =>
      ((ic.2.name : String),
        ((col, startRow grid.height group.length + ic.1) : Pos)))
    (fun acc (e : String × Pos) => mapSet acc e.1 e.2) group.enum m
  have hstep : placeGroup grid group col m =
      (group.enum.map (fun ic : Nat × Combatant =>
        ((ic.2.name : String),
          ((col, startRow grid.height group.length + ic.1) : Pos)))).foldl
        (fun acc e => mapSet acc e.1 e.2) m := hfm.symm
  rw [hstep]
  apply foldl_mapSet_fresh
  · intro e he d hdm
    obtain ⟨ic, hic, rfl⟩ := List.mem_map.mp he
    exact hd ic.2 (List.snd_mem_of_mem_enum hic) d hdm
  · rw [List.map_map]
    have h1 : (Prod.fst ∘ fun ic : Nat × Combatant =>
        ((ic.2.name : String),
          ((col, startRow grid.height group.length + ic.1) : Pos))) =
        (Combatant.name ∘ Prod.snd) := rfl
    rw [h1, ← List.map_map, List.enum_map_snd]
    exact hn

theorem keys_groupPairs (group : List Combatant) (col s : Int) :
    ((group.enum.map (fun ic =>
        ((ic.2.name : String), ((col, s + ic.1) : Pos)))).map Prod.fst) =
      group.map Combatant.name := by
  rw [List.map_map]
  have h1 : (Prod.fst ∘ fun ic : Nat × Combatant =>
      ((ic.2.name : String), ((col, s + ic.1) : Pos))) =
      (Combatant.name ∘ Prod.snd) := rfl
  rw [h1, ← List.map_map, List.enum_map_snd]

theorem snd_groupPairs_nodup (group : List Combatant) (col s : Int) :
    ((group.enum.map (fun ic =>
        ((ic.2.name : String), ((col, s + ic.1) : Pos)))).map Prod.snd).Nodup := by
  rw [List.map_map]
  have h1 : (Prod.snd ∘ fun ic : Nat × Combatant =>
      ((ic.2.name : String), ((col, s + ic.1) : Pos))) =
      (fun ic : Nat × Combatant => ((col, s + ic.1) : Pos)) := rfl
  rw [h1]
  have hfstnd : (group.enum.map Prod.fst).Nodup := by
    rw [List.enum_map_fst]
    exact List.nodup_range group.length
  have henum : group.enum.Nodup := List.Nodup.of_map Prod.fst hfstnd
  apply List.Nodup.map_on ?_ henum
  intro a ha b hb hab
  have h2 : s + (a.1 : Int) = s + (b.1 : Int) := congrArg Prod.snd hab
  have h3 : a.1 = b.1 := by omega
  exact List.inj_on_of_nodup_map hfstnd ha hb h3

theorem startRow_bounds (h : Int) (len i : Nat) (hi : i < len)
    (hlen : (len : Int) ≤ h) :
    0 ≤ startRow h len + i ∧ startRow h len + i < h := by
  unfold startRow
  have h0 : (0 : Int) ≤ h - len := by omega
  obtain ⟨n, hn⟩ := Int.eq_ofNat_of_zero_le h0
  have hf : (h - (len : Int)).fdiv 2 = ((n / 2 : Nat) : Int) := by
    rw [hn]
    exact (Int.ofNat_fdiv n 2).symm
  rw [hf, max_eq_right (by exact_mod_cast Nat.zero_le (n / 2))]
  have hle : ((n / 2 : Nat) : Int) ≤ h - len := by
    rw [hn]
    exact_mod_cast Nat.div_le_self n 2
  omega

theorem autoPlace_eq (cs : List Combatant) (grid : GridSize)
    (hnames : (cs.map Combatant.name).Nodup) :
    autoPlaceCombatants cs grid =
      (cs.filter (fun c => c.is_player || c.is_friendly)).enum.map (fun ic =>
        ((ic.2.name : String), (((3 : Int),
          startRow grid.height
            (cs.filter (fun c => c.is_player || c.is_friendly)).length + ic.1) : Pos))) ++
      (cs.filter (fun c => !c.is_player && !c.is_friendly)).enum.map (fun ic =>
        ((ic.2.name : String), ((grid.width - 4,
          startRow grid.height
            (cs.filter (fun c => !c.is_player && !c.is_friendly)).length + ic.1) : Pos))) := by
  have hnP : ((cs.filter (fun c => c.is_player || c.is_friendly)).map Combatant.name).Nodup :=
    List.Nodup.sublist ((List.filter_sublist cs).map Combatant.name) hnames
  have hnE : ((cs.filter (fun c => !c.is_player && !c.is_friendly)).map Combatant.name).Nodup :=
    List.Nodup.sublist ((List.filter_sublist cs).map Combatant.name) hnames
  have hstep : autoPlaceCombatants cs grid =
      placeGroup grid (cs.filter (fun c => !c.is_player && !c.is_friendly))
        (grid.width - 4)
        (placeGroup grid (cs.filter (fun c => c.is_player || c.is_friendly)) 3 []) := rfl
  rw [hstep, placeGroup_eq grid _ 3 [] hnP (fun c _ d hd => absurd hd (List.not_mem_nil d)),
    List.nil_append]
  apply placeGroup_eq grid _ (grid.width - 4) _ hnE
  intro c hc d hd
  obtain ⟨ic, hic, rfl⟩ := List.mem_map.mp hd
  intro hq
  have hcm : c ∈ cs := List.mem_of_mem_filter hc
  have hicm : ic.2 ∈ cs := List.mem_of_mem_filter (List.snd_mem_of_mem_enum hic)
  have hceq : c = ic.2 := List.inj_on_of_nodup_map hnames hcm hicm hq
  have h1 : (!c.is_player && !c.is_friendly) = true := (List.mem_filter.mp hc).2
  have h2 : (ic.2.is_player || ic.2.is_friendly) = true :=
    (List.mem_filter.mp (List.snd_mem_of_mem_enum hic)).2
  rw [← hceq] at h2
  cases hcp : c.is_player with
  | true => rw [hcp] at h1; simp at h1
  | false =>
    rw [hcp] at h1 h2
    simp at h1 h2
    rw [h2] at h1
    simp at h1

/-- Counterexample to claim C6 as stated: on the default 20 by 15 grid the
auto-placed player-side combatant is put at cell (3,7), which lies on no edge
of the grid (neither border column nor border row). -/
theorem autoPlaceCombatants_edge_counterexample :
    mapGet (autoPlaceCombatants
      [⟨"Aria", 0, 12, 12, true, false, false, []⟩,
       ⟨"Gob", 0, 7, 7, false, false, false, []⟩] ⟨20, 15⟩) "Aria" =
      some (3, 7) ∧
    ¬ onEdge ⟨20, 15⟩ (3, 7) := by decide

/-- Claim C6 (amended) — when positions are not pre-supplied, auto-placement
puts every player-side combatant in column 3 and every hostile-side combatant
in column `width - 4` (near opposite edges, not on them), each group
vertically centered starting at row `max(0, ⌊(height - size)/2⌋)` in roster
order, deterministically. -/
theorem autoPlaceCombatants_columns_centered (cs : List Combatant)
    (grid : GridSize) (hnames : (cs.map Combatant.name).Nodup) :
    autoPlaceCombatants cs grid =
      (cs.filter (fun c => c.is_player || c.is_friendly)).enum.map (fun ic =>
        ((ic.2.name : String), (((3 : Int),
          startRow grid.height
            (cs.filter (fun c => c.is_player || c.is_friendly)).length + ic.1) : Pos))) ++
      (cs.filter (fun c => !c.is_player && !c.is_friendly)).enum.map (fun ic =>
        ((ic.2.name : String), ((grid.width - 4,
          startRow grid.height
            (cs.filter (fun c => !c.is_player && !c.is_friendly)).length + ic.1) : Pos))) :=
  autoPlace_eq cs grid hnames

/-- Concrete instantiation of the amended C6 theorem on a 1v1 roster. -/
theorem autoPlaceCombatants_columns_centered_witness :
    autoPlaceCombatants
      [⟨"Aria", 0, 12, 12, true, false, false, []⟩,
       ⟨"Gob", 0, 7, 7, false, false, false, []⟩] ⟨20, 15⟩ =
      (([⟨"Aria", 0, 12, 12, true, false, false, []⟩,
        ⟨"Gob", 0, 7, 7, false, false, false, []⟩] :
          List Combatant).filter (fun c => c.is_player || c.is_friendly)).enum.map
        (fun ic => ((ic.2.name : String), (((3 : Int),
          startRow 15
            (([⟨"Aria", 0, 12, 12, true, false, false, []⟩,
              ⟨"Gob", 0, 7, 7, false, false, false, []⟩] :
                List Combatant).filter (fun c => c.is_player || c.is_friendly)).length +
            ic.1) : Pos))) ++
      (([⟨"Aria", 0, 12, 12, true, false, false, []⟩,
        ⟨"Gob", 0, 7, 7, false, false, false, []⟩] :
          List Combatant).filter (fun c => !c.is_player && !c.is_friendly)).enum.map
        (fun ic => ((ic.2.name : String), (((20 : Int) - 4,
          startRow 15
            (([⟨"Aria", 0, 12, 12, true, false, false, []⟩,
              ⟨"Gob", 0, 7, 7, false, false, false, []⟩] :
                List Combatant).filter (fun c => !c.is_player && !c.is_friendly)).length +
            ic.1) : Pos))) :=
  autoPlaceCombatants_columns_centered
    [⟨"Aria", 0, 12, 12, true, false, false, []⟩,
     ⟨"Gob", 0, 7, 7, false, false, false, []⟩] ⟨20, 15⟩ (by decide)

/-- Claim C10 — on a grid of width at least 8 whose height accommodates each
side, auto-placement of a distinctly named roster assigns every combatant
exactly one cell: the keys are exactly the roster (unique, one entry per
combatant), every assigned cell is inside the grid, the cells are pairwise
distinct, and each combatant sits in column 3 (player side) or column
`width - 4` (enemy side). -/
theorem autoPlaceCombatants_valid (cs : List Combatant) (grid : GridSize)
    (hnames : (cs.map Combatant.name).Nodup)
    (hw : 8 ≤ grid.width)
    (hph : ((cs.filter (fun c => c.is_player || c.is_friendly)).length : Int) ≤
      grid.height)
    (heh : ((cs.filter (fun c => !c.is_player && !c.is_friendly)).length : Int) ≤
      grid.height) :
    ((autoPlaceCombatants cs grid).map Prod.fst).Nodup ∧
    (autoPlaceCombatants cs grid).length = cs.length ∧
    (∀ e ∈ autoPlaceCombatants cs grid, inBounds grid e.2) ∧
    ((autoPlaceCombatants cs grid).map Prod.snd).Nodup ∧
    (∀ c ∈ cs, ∃ q : Pos, mapGet (autoPlaceCombatants cs grid) c.name = some q ∧
      (isPlayerSide c = true → q.1 = 3) ∧
      (isPlayerSide c = false → q.1 = grid.width - 4)) := by
  rw [autoPlace_eq cs grid hnames]
  have hEeq : cs.filter (fun c => !c.is_player && !c.is_friendly) =
      cs.filter (fun c => !(c.is_player || c.is_friendly)) :=
    List.filter_congr (fun c _ => by cases c.is_player <;> cases c.is_friendly <;> rfl)
  have hperm : List.Perm
      (cs.filter (fun c => c.is_player || c.is_friendly) ++
        cs.filter (fun c => !c.is_player && !c.is_friendly)) cs := by
    rw [hEeq]
    exact List.filter_append_perm _ cs
  have hkeys : (((cs.filter (fun c => c.is_player || c.is_friendly)).enum.map (fun ic =>
      ((ic.2.name : String), (((3 : Int),
        startRow grid.height
          (cs.filter (fun c => c.is_player || c.is_friendly)).length + ic.1) : Pos))) ++
      (cs.filter (fun c => !c.is_player && !c.is_friendly)).enum.map (fun ic =>
        ((ic.2.name : String), ((grid.width - 4,
          startRow grid.height
            (cs.filter (fun c => !c.is_player && !c.is_friendly)).length + ic.1) : Pos)))).map
        Prod.fst) =
      (cs.filter (fun c => c.is_player || c.is_friendly)).map Combatant.name ++
      (cs.filter (fun c => !c.is_player && !c.is_friendly)).map Combatant.name := by
    rw [List.map_append, keys_groupPairs, keys_groupPairs]
  have hkeysnd : (((cs.filter (fun c => c.is_player || c.is_friendly)).enum.map (fun ic =>
      ((ic.2.name : String), (((3 : Int),
        startRow grid.height
          (cs.filter (fun c => c.is_player || c.is_friendly)).length + ic.1) : Pos))) ++
      (cs.filter (fun c => !c.is_player && !c.is_friendly)).enum.map (fun ic =>
        ((ic.2.name : String), ((grid.width - 4,
          startRow grid.height
            (cs.filter (fun c => !c.is_player && !c.is_friendly)).length + ic.1) : Pos)))).map
        Prod.fst).Nodup := by
    rw [hkeys, ← List.map_append]
    exact ((hperm.map Combatant.name).nodup_iff).mpr hnames
  refine ⟨hkeysnd, ?_, ?_, ?_, ?_⟩
  · rw [List.length_append, List.length_map, List.length_map,
      List.enum_length, List.enum_length]
    have hl := hperm.length_eq
    rw [List.length_append] at hl
    exact hl
  · intro e hee
    rcases List.mem_append.mp hee with hp1 | hp1
    · obtain ⟨ic, hic, rfl⟩ := List.mem_map.mp hp1
      have hi := List.fst_lt_of_mem_enum hic
      have hb := startRow_bounds grid.height _ ic.1 hi hph
      refine ⟨?_, ?_, hb.1, hb.2⟩
      · show (0 : Int) ≤ 3
        omega
      · show (3 : Int) < grid.width
        omega
    · obtain ⟨ic, hic, rfl⟩ := List.mem_map.mp hp1
      have hi := List.fst_lt_of_mem_enum hic
      have hb := startRow_bounds grid.height _ ic.1 hi heh
      refine ⟨?_, ?_, hb.1, hb.2⟩
      · show (0 : Int) ≤ grid.width - 4
        omega
      · show grid.width - 4 < grid.width
        omega
  · rw [List.map_append, List.nodup_append]
    refine ⟨snd_groupPairs_nodup _ 3 _, snd_groupPairs_nodup _ (grid.width - 4) _, ?_⟩
    intro a hap hae
    obtain ⟨d, hd, rfl⟩ := List.mem_map.mp hap
    obtain ⟨ic, hic, rfl⟩ := List.mem_map.mp hd
    obtain ⟨d2, hd2, hdeq⟩ := List.mem_map.mp hae
    obtain ⟨jc, hjc, rfl⟩ := List.mem_map.mp hd2
    have hx : grid.width - 4 = 3 := congrArg Prod.fst hdeq
    omega
  · intro c hc
    by_cases hside : isPlayerSide c = true
    · have hcP : c ∈ cs.filter (fun c => c.is_player || c.is_friendly) :=
        List.mem_filter.mpr ⟨hc, hside⟩
      obtain ⟨n, hn⟩ := List.mem_iff_get.mp hcP
      have hq : (cs.filter (fun c => c.is_player || c.is_friendly))[(n.1 : Nat)]? =
          some c := by
        rw [List.getElem?_eq_getElem n.2]
        exact congrArg some (by rw [← hn]; rfl)
      have henum : (n.1, c) ∈ (cs.filter (fun c => c.is_player || c.is_friendly)).enum :=
        (List.mk_mem_enum_iff_getElem?).mpr hq
      refine ⟨((3 : Int),
        startRow grid.height
          (cs.filter (fun c => c.is_player || c.is_friendly)).length + n.1), ?_,
        fun _ => rfl, fun hf => by rw [hside] at hf; exact Bool.noConfusion hf⟩
      apply mapGet_of_mem_nodup hkeysnd
      apply List.mem_append_left
      exact List.mem_map_of_mem _ henum
    · have hsideF : isPlayerSide c = false := Bool.eq_false_iff.mpr hside
      have hcE : c ∈ cs.filter (fun c => !c.is_player && !c.is_friendly) := by
        refine List.mem_filter.mpr ⟨hc, ?_⟩
        rw [show (!c.is_player && !c.is_friendly) = !(c.is_player || c.is_friendly) by
          cases c.is_player <;> cases c.is_friendly <;> rfl]
        have : (c.is_player || c.is_friendly) = false := hsideF
        rw [this]
        rfl
      obtain ⟨n, hn⟩ := List.mem_iff_get.mp hcE
      have hq : (cs.filter (fun c => !c.is_player && !c.is_friendly))[(n.1 : Nat)]? =
          some c := by
        rw [List.getElem?_eq_getElem n.2]
        exact congrArg some (by rw [← hn]; rfl)
      have henum : (n.1, c) ∈ (cs.filter (fun c => !c.is_player && !c.is_friendly)).enum :=
        (List.mk_mem_enum_iff_getElem?).mpr hq
      refine ⟨(grid.width - 4,
        startRow grid.height
          (cs.filter (fun c => !c.is_player && !c.is_friendly)).length + n.1), ?_,
        fun ht => by rw [hsideF] at ht; exact Bool.noConfusion ht, fun _ => rfl⟩
      apply mapGet_of_mem_nodup hkeysnd
      apply List.mem_append_right
      exact List.mem_map_of_mem _ henum

/-- Concrete instantiation of the C10 theorem: a 2v2 roster on the default
grid gets four distinct keys. -/
theorem autoPlaceCombatants_valid_witness :
    ((autoPlaceCombatants
      [⟨"Aria", 0, 12, 12, true, false, false, []⟩,
       ⟨"Borin", 0, 14, 14, true, false, false, []⟩,
       ⟨"Gob", 0, 7, 7, false, false, false, []⟩,
       ⟨"Wolf", 0, 11, 11, false, false, false, []⟩] ⟨20, 15⟩).map Prod.fst).Nodup :=
  (autoPlaceCombatants_valid
    [⟨"Aria", 0, 12, 12, true, false, false, []⟩,
     ⟨"Borin", 0, 14, 14, true, false, false, []⟩,
     ⟨"Gob", 0, 7, 7, false, false, false, []⟩,
     ⟨"Wolf", 0, 11, 11, false, false, false, []⟩] ⟨20, 15⟩
    (by decide) (by decide) (by decide) (by decide)).1

end AgenticDM
